import Mathlib

/-!
Verification of the data aggregation and filtering pipeline of the
public-transportation dashboard (`src/dashboard.py`).

The dashboard's core transforms in-memory tables (lists of records) by
filtering, groupby-sum aggregation, top-N selection, and derived-field
construction (normalized arc widths, composite `year_month` period keys,
event annotations).  The embedding below models:
  * a table as a `List` of typed records (`BusRow`, `TrainRow`);
  * pandas `groupby(keys)[measure].sum()` as `groupbySum` (distinct keys
    paired with their summed measure; pandas additionally sorts the group
    keys, an ordering no property below depends on — the one place the
    source needs ordered output it re-sorts explicitly with
    `sort_values`);
  * pandas `nlargest(n, col)` (default `keep="first"`) as `nlargest`:
    the stable descending selection, realised by sorting position-tagged
    rows by (measure descending, position ascending) and taking `n`;
  * float division `df[c] / df[c].max()` over exact rationals via
    `pdDiv`, where a zero divisor yields no finite value (`none`,
    standing for the NaN pandas produces on 0/0);
  * Python `str(n)` on a non-negative int as `Nat.repr`, and
    `str.zfill(2)` on such digit strings as `zfill2`.
Machine integers are modelled as `ℕ`/`ℤ` (the counts involved are small
and non-negative by the data-model invariants; no overflow semantics are
exercised by the source).
-/

/-- Bus trip record: one row of the merged bus table consumed by
`show_bus_routes_connectivity` (columns `year`, `origin_yishuv_nm`,
`destination_yishuv_nm`, `lat_origin`, `lon_origin`, `lat_dest`,
`lon_dest`, `trips_count`).  Coordinates are opaque grouping values,
modelled as rationals. -/
structure BusRow where
  year : ℕ
  origin_yishuv_nm : String
  destination_yishuv_nm : String
  lat_origin : ℚ
  lon_origin : ℚ
  lat_dest : ℚ
  lon_dest : ℚ
  trips_count : ℤ
deriving DecidableEq

/-- Train status/ridership record: one row of
`timetable_train_database_preproccesed.csv` (columns `shana` = year,
`hodesh` = month, `train_station_nm`, `station_status_nm`,
`status_count`). -/
structure TrainRow where
  shana : ℕ
  hodesh : ℕ
  train_station_nm : String
  station_status_nm : String
  status_count : ℤ
deriving DecidableEq

/-- Distinct grouping keys of a table (the index of a pandas `groupby`).
`dedup` produces each distinct key once; key order is irrelevant to every
property proved below. -/
def groupKeys {R K : Type} [DecidableEq K] (key : R → K) (rows : List R) : List K :=
  (rows.map key).dedup

/-- Model of `df.groupby(keys, as_index=False)[measure].sum()`: one output
row per distinct key, carrying the sum of the measure over all input rows
with that key. -/
def groupbySum {R K : Type} [DecidableEq K] (key : R → K) (measure : R → ℤ)
    (rows : List R) : List (K × ℤ) :=
  (groupKeys key rows).map fun k =>
    (k, ((rows.filter fun r => decide (key r = k)).map measure).sum)

/-- Ranking relation behind pandas `nlargest(n, col)` with the default
`keep="first"`: position-tagged rows are ordered descending by the
measure, ties broken by ascending original position.  Sorting by this
relation is exactly the stable descending sort. -/
def rankRel {R : Type} (measure : R → ℤ) (a b : ℕ × R) : Prop :=
  measure b.2 < measure a.2 ∨ (measure a.2 = measure b.2 ∧ a.1 ≤ b.1)

instance rankRelDec {R : Type} (measure : R → ℤ) : DecidableRel (rankRel measure) :=
  fun a b =>
    decidable_of_iff (measure b.2 < measure a.2 ∨ (measure a.2 = measure b.2 ∧ a.1 ≤ b.1)) Iff.rfl

instance rankRelTotal {R : Type} (measure : R → ℤ) : IsTotal (ℕ × R) (rankRel measure) :=
  ⟨by intro a b; unfold rankRel; omega⟩

instance rankRelTrans {R : Type} (measure : R → ℤ) : IsTrans (ℕ × R) (rankRel measure) :=
  ⟨by intro a b c hab hbc; unfold rankRel at hab hbc ⊢; omega⟩

/-- Stable descending sort by a measure: the order in which pandas
`nlargest` ranks the whole table before cutting at `n`. -/
def stableSortDesc {R : Type} (measure : R → ℤ) (rows : List R) : List R :=
  (rows.enum.insertionSort (rankRel measure)).map Prod.snd

/-- Model of `df.nlargest(n, col)` (line 136): the first `n` rows of the
stable descending sort by `col`. -/
def nlargest {R : Type} (n : ℕ) (measure : R → ℤ) (rows : List R) : List R :=
  (stableSortDesc measure rows).take n

/-- Strict ordering of position tags; used to compare stable sorts. -/
def idxLt {R : Type} (a b : ℕ × R) : Prop :=
  a.1 < b.1

instance idxLtAntisymm {R : Type} : IsAntisymm (ℕ × R) (@idxLt R) :=
  ⟨fun _ _ h1 h2 => absurd (lt_trans h1 h2) (lt_irrefl _)⟩

/-- Maximum of a numeric pandas Series (`df[col].max()`); the source only
applies it to a non-empty result set (the empty case is guarded at line
138 before normalization). -/
def seriesMax : List ℚ → ℚ
  | [] => 0
  | a :: rest => rest.foldl max a

/-- Float division as pandas performs it, over exact rationals: a zero
divisor yields no finite value (`none`, the NaN/inf of the float world);
any other divisor yields the exact quotient. -/
def pdDiv (a b : ℚ) : Option ℚ :=
  if b = 0 then none else some (a / b)

/-- Derived-field step of lines 143–145:
`df_top15["normalized_width"] = df_top15["trips_count"] /
df_top15["trips_count"].max() * 6`.  Each row is paired with its
normalized width. -/
def normalizeWidth {R : Type} (measure : R → ℤ) (rows : List R) : List (R × Option ℚ) :=
  let mx := seriesMax (rows.map fun r => ((measure r : ℚ)))
  rows.map fun r => (r, (pdDiv ((measure r : ℚ)) mx).map fun q => q * 6)

/-- Grouping key of the bus pipeline (lines 121–133): origin city,
destination city and the four coordinate columns. -/
def busKey (r : BusRow) : String × String × ℚ × ℚ × ℚ × ℚ :=
  (r.origin_yishuv_nm, r.destination_yishuv_nm, r.lat_origin, r.lon_origin, r.lat_dest, r.lon_dest)

/-- Grouping key of the train-status pipeline (lines 306–308): station
name and status category. -/
def statusKey (r : TrainRow) : String × String :=
  (r.train_station_nm, r.station_status_nm)

/-- Bus pipeline of `show_bus_routes_connectivity`, lines 112–136: filter
to the selected years, filter to the chosen origin city, group by the
city/coordinate key summing `trips_count`, keep the top 15 by
`trips_count`. -/
def busPipeline (df : List BusRow) (selected_years : List ℕ) (selected_origin : String) :
    List ((String × String × ℚ × ℚ × ℚ × ℚ) × ℤ) :=
  let df_filtered := df.filter fun r => decide (r.year ∈ selected_years)
  let df_city := df_filtered.filter fun r => decide (r.origin_yishuv_nm = selected_origin)
  let df_city_grouped := groupbySum busKey (fun r => r.trips_count) df_city
  nlargest 15 (fun p => p.2) df_city_grouped

/-- Filter of `show_train_status_analysis`, lines 286–291: keep rows with
the selected year, a station in the selection, and
`month_range[0] <= hodesh <= month_range[1]` — a conjunction of the four
boolean masks. -/
def statusFilter (df : List TrainRow) (year_filter : ℕ) (station_filter : List String)
    (lo hi : ℕ) : List TrainRow :=
  df.filter fun r =>
    decide (r.shana = year_filter) && decide (r.train_station_nm ∈ station_filter)
      && decide (lo ≤ r.hodesh) && decide (r.hodesh ≤ hi)

/-- Python `str.zfill(2)` on a digit string: pad with zeros on the left
to length 2 (the sign handling of `zfill` is irrelevant here, the source
applies it to decimal representations of non-negative months). -/
def zfill2 (s : String) : String :=
  if s.length < 2 then String.mk (List.replicate (2 - s.length) '0' ++ s.data) else s

/-- Composite period key of lines 424–428:
`trips_per_month["shana"].astype(str) + "-" +
trips_per_month["hodesh"].astype(str).str.zfill(2)`. -/
def year_month (shana hodesh : ℕ) : String :=
  Nat.repr shana ++ "-" ++ zfill2 (Nat.repr hodesh)

/-- Row-level date cutoff of lines 365–368: keep rows strictly before
2024, or in 2024 with month at most September. -/
def ridershipBase (data : List TrainRow) : List TrainRow :=
  data.filter fun r =>
    decide (r.shana < 2024) || (decide (r.shana = 2024) && decide (r.hodesh ≤ 9))

/-- Station filter of lines 409–412 (`"All"` keeps every row). -/
def filterStation (data : List TrainRow) (selected_city : String) : List TrainRow :=
  if selected_city = "All" then data
  else data.filter fun r => decide (r.train_station_nm = selected_city)

/-- Year-range filter of lines 415–418. -/
def filterYearRange (data : List TrainRow) (lo hi : ℕ) : List TrainRow :=
  data.filter fun r => decide (lo ≤ r.shana) && decide (r.shana ≤ hi)

/-- Grouping key of the ridership pipeline: (shana, hodesh). -/
def monthKeyOf (r : TrainRow) : ℕ × ℕ :=
  (r.shana, r.hodesh)

/-- Ascending lexicographic order on (shana, hodesh), the order of
`sort_values(by=["shana", "hodesh"])` (line 429). -/
def ymLe (a b : ℕ × ℕ) : Prop :=
  a.1 < b.1 ∨ (a.1 = b.1 ∧ a.2 ≤ b.2)

/-- Strict version of `ymLe`. -/
def ymLt (a b : ℕ × ℕ) : Prop :=
  a.1 < b.1 ∨ (a.1 = b.1 ∧ a.2 < b.2)

/-- `ymLe` lifted to series points ((shana, hodesh), count, period key). -/
def seriesLe (p q : (ℕ × ℕ) × ℤ × String) : Prop :=
  ymLe p.1 q.1

instance seriesLeDec : DecidableRel seriesLe :=
  fun p q =>
    decidable_of_iff (p.1.1 < q.1.1 ∨ (p.1.1 = q.1.1 ∧ p.1.2 ≤ q.1.2)) Iff.rfl

instance seriesLeTotal : IsTotal ((ℕ × ℕ) × ℤ × String) seriesLe :=
  ⟨by intro a b; unfold seriesLe ymLe; omega⟩

instance seriesLeTrans : IsTrans ((ℕ × ℕ) × ℤ × String) seriesLe :=
  ⟨by intro a b c hab hbc; unfold seriesLe ymLe at hab hbc ⊢; omega⟩

/-- Monthly series of lines 421–429: group by (shana, hodesh) summing
`status_count`, attach the `year_month` period key, sort ascending by
(shana, hodesh).  Each point carries its (year, month) key, summed count
and period-key string. -/
def tripsPerMonth (rows : List TrainRow) : List ((ℕ × ℕ) × ℤ × String) :=
  ((groupbySum monthKeyOf (fun r => r.status_count) rows).map
      fun p => (p.1, p.2, year_month p.1.1 p.1.2)).insertionSort seriesLe

/-- Full ridership pipeline of `show_train_ridership_events`: date
cutoff, station filter, year-range filter, monthly aggregation. -/
def ridershipSeries (data : List TrainRow) (selected_city : String) (lo hi : ℕ) :
    List ((ℕ × ℕ) × ℤ × String) :=
  tripsPerMonth (filterYearRange (filterStation (ridershipBase data) selected_city) lo hi)

/-- Position of the first list element satisfying `p`, together with that
element, starting the count at `i` — the
`trips_per_month[trips_per_month["year_month"] == date].index[0]` lookup
of line 490 plus the `status_count` read at that index (line 491). -/
def findFirstIdx {α : Type} (p : α → Bool) : List α → ℕ → Option (ℕ × α)
  | [], _ => none
  | a :: as, i => if p a then some (i, a) else findFirstIdx p as (i + 1)

/-- Event-annotation step of lines 487–502: each configured date that
occurs among the series period keys contributes a marker
(date, x index, y value); a date absent from the series is skipped. -/
def eventMarkers (series : List ((ℕ × ℕ) × ℤ × String)) (dates : List String) :
    List (String × ℕ × ℤ) :=
  dates.filterMap fun d =>
    (findFirstIdx (fun p => decide (p.2.2 = d)) series 0).map fun q => (d, q.1, q.2.2.1)

/-- Literal period keys of the four configured event annotations
(lines 432–445). -/
def annotationDates : List String :=
  ["2020-03", "2020-12", "2023-10", "2024-05"]

/-- Decimal value of a digit character. -/
def decDigitVal (c : Char) : ℕ :=
  c.toNat - 48

/-- Decimal value of a digit string, folded onto the accumulator `a`;
evaluator used to invert `Nat.repr`. -/
def decValFrom (a : ℕ) (l : List Char) : ℕ :=
  l.foldl (fun x c => 10 * x + decDigitVal c) a

/-- Concrete scenario rows of the specification's bus example:
two Tel Aviv → Haifa rows (100 and 50 trips) and one
Tel Aviv → Jerusalem row (30 trips), all in 2023. -/
def busRowTAH1 : BusRow :=
  ⟨2023, "Tel Aviv", "Haifa", 32, 34, 32, 35, 100⟩

/-- Second Tel Aviv → Haifa row of the scenario. -/
def busRowTAH2 : BusRow :=
  ⟨2023, "Tel Aviv", "Haifa", 32, 34, 32, 35, 50⟩

/-- Tel Aviv → Jerusalem row of the scenario. -/
def busRowTAJ : BusRow :=
  ⟨2023, "Tel Aviv", "Jerusalem", 32, 34, 31, 35, 30⟩

/-- The three-row scenario table. -/
def busScenario : List BusRow :=
  [busRowTAH1, busRowTAH2, busRowTAJ]

/-- Bus row with zero trips, exhibiting the all-zero normalization case. -/
def zeroBusRow : BusRow :=
  ⟨2023, "Tel Aviv", "Haifa", 32, 34, 32, 35, 0⟩

/-- Concrete train row used in counterexamples and witnesses. -/
def trainRowHaifa : TrainRow :=
  ⟨2023, 2, "Haifa", "on_time", 5⟩

/-- Concrete train row for the ridership pipeline witnesses. -/
def trainRowMay : TrainRow :=
  ⟨2023, 5, "Haifa", "on_time", 7⟩

/-- Concrete two-point monthly series used in the event-marker witness. -/
def sampleSeries : List ((ℕ × ℕ) × ℤ × String) :=
  [((2020, 2), 5, "2020-02"), ((2020, 3), 9, "2020-03")]

/-! ### Helper lemmas: decimal representations -/

/-- Decimal digit characters evaluate back to their digit. -/
theorem digitChar_val : ∀ d : ℕ, d < 10 → decDigitVal (Nat.digitChar d) = d := by decide

/-- Folding step of `decValFrom` over a cons. -/
theorem decValFrom_cons (a : ℕ) (c : Char) (l : List Char) :
    decValFrom a (c :: l) = decValFrom (10 * a + decDigitVal c) l := rfl

/-- Evaluating the digits emitted by `Nat.toDigitsCore` recovers the
encoded number. -/
theorem toDigitsCore_decVal : ∀ (fuel n : ℕ) (ds : List Char), n < fuel →
    decValFrom 0 (Nat.toDigitsCore 10 fuel n ds) = decValFrom n ds := by
  intro fuel
  induction fuel with
  | zero => intro n ds h; exact absurd h (Nat.not_lt_zero n)
  | succ f ih =>
    intro n ds h
    rw [Nat.toDigitsCore]
    by_cases h10 : n / 10 = 0
    · have hn : n < 10 := (Nat.div_eq_zero_iff (by norm_num)).1 h10
      simp only [h10, if_true]
      rw [decValFrom_cons, digitChar_val (n % 10) (Nat.mod_lt _ (by norm_num))]
      rw [Nat.mod_eq_of_lt hn]
      norm_num
    · have hpos : 0 < n := by
        rcases Nat.eq_zero_or_pos n with h0 | h0
        · exact absurd (by simp [h0]) h10
        · exact h0
      have hlt : n / 10 < f :=
        lt_of_lt_of_le (Nat.div_lt_self hpos (by norm_num)) (Nat.lt_succ_iff.mp h)
      simp only [h10, if_false]
      rw [ih (n / 10) (Nat.digitChar (n % 10) :: ds) hlt]
      rw [decValFrom_cons, digitChar_val (n % 10) (Nat.mod_lt _ (by norm_num)), Nat.div_add_mod]

/-- Round trip: evaluating the decimal string of `n` gives back `n`. -/
theorem repr_decVal (n : ℕ) : decValFrom 0 (Nat.repr n).data = n := by
  have h : (Nat.repr n).data = Nat.toDigitsCore 10 (n + 1) n [] := rfl
  rw [h]
  exact toDigitsCore_decVal (n + 1) n [] (Nat.lt_succ_self n)

/-- Python `str(n)` (decimal representation) is injective on `ℕ`. -/
theorem natRepr_inj : Function.Injective Nat.repr := by
  intro a b h
  have ha := repr_decVal a
  rw [h, repr_decVal] at ha
  exact ha.symm

/-- Zero-padding the decimal month representation agrees with prepending
a `"0"` exactly below 10. -/
theorem zfill2_repr_eq : ∀ m : ℕ, m < 13 →
    zfill2 (Nat.repr m) = if m < 10 then "0" ++ Nat.repr m else Nat.repr m := by decide

/-- Zero-padded months occupy exactly two characters. -/
theorem zfill2_repr_len : ∀ m : ℕ, m < 13 → (zfill2 (Nat.repr m)).length = 2 := by decide

/-- Character-list version of `zfill2_repr_len`. -/
theorem zfill2_repr_data_len : ∀ m : ℕ, m < 13 → (zfill2 (Nat.repr m)).data.length = 2 := by decide

/-- Zero-padded month strings are distinct for distinct months in range. -/
theorem zfill2_repr_inj : ∀ m1 : ℕ, m1 < 13 → ∀ m2 : ℕ, m2 < 13 →
    zfill2 (Nat.repr m1) = zfill2 (Nat.repr m2) → m1 = m2 := by decide

/-- Period keys determine (year, month) for months in range. -/
theorem year_month_inj {y1 m1 y2 m2 : ℕ} (hm1 : m1 ≤ 12) (hm2 : m2 ≤ 12)
    (h : year_month y1 m1 = year_month y2 m2) : y1 = y2 ∧ m1 = m2 := by
  have hd := congrArg String.data h
  have hdash : ("-" : String).data = ['-'] := rfl
  simp only [year_month, String.data_append, hdash, List.append_assoc,
    List.singleton_append] at hd
  have hlen : ('-' :: (zfill2 (Nat.repr m1)).data).length
      = ('-' :: (zfill2 (Nat.repr m2)).data).length := by
    simp [zfill2_repr_data_len m1 (by omega), zfill2_repr_data_len m2 (by omega)]
  obtain ⟨hy, hm⟩ := List.append_inj' hd hlen
  refine ⟨natRepr_inj (String.ext hy), ?_⟩
  have ht : (zfill2 (Nat.repr m1)).data = (zfill2 (Nat.repr m2)).data := by
    simpa using hm
  exact zfill2_repr_inj m1 (by omega) m2 (by omega) (String.ext ht)

/-! ### Helper lemmas: series maximum -/

/-- Left fold with `max` dominates its seed and every list element. -/
theorem le_foldl_max (l : List ℚ) : ∀ a : ℚ, a ≤ l.foldl max a ∧ ∀ x ∈ l, x ≤ l.foldl max a := by
  induction l with
  | nil => intro a; exact ⟨le_refl a, by simp⟩
  | cons b t ih =>
    intro a
    simp only [List.foldl_cons]
    refine ⟨le_trans (le_max_left a b) (ih (max a b)).1, ?_⟩
    intro x hx
    rcases List.mem_cons.mp hx with rfl | hx
    · exact le_trans (le_max_right a x) (ih (max a x)).1
    · exact (ih (max a b)).2 x hx

/-- Left fold with `max` returns the seed or a list element. -/
theorem foldl_max_mem (l : List ℚ) : ∀ a : ℚ, l.foldl max a = a ∨ l.foldl max a ∈ l := by
  induction l with
  | nil => intro a; exact Or.inl rfl
  | cons b t ih =>
    intro a
    simp only [List.foldl_cons]
    rcases ih (max a b) with h | h
    · rcases max_choice a b with hm | hm
      · exact Or.inl (h.trans hm)
      · rw [h, hm]; exact Or.inr (List.mem_cons_self b t)
    · exact Or.inr (List.mem_cons_of_mem b h)

/-- Every element of a series is at most its maximum. -/
theorem le_seriesMax (l : List ℚ) : ∀ x ∈ l, x ≤ seriesMax l := by
  cases l with
  | nil => intro x hx; exact absurd hx (List.not_mem_nil x)
  | cons a t =>
    intro x hx
    rcases List.mem_cons.mp hx with rfl | hx
    · exact (le_foldl_max t x).1
    · exact (le_foldl_max t a).2 x hx

/-- The maximum of a non-empty series is attained by one of its rows. -/
theorem seriesMax_mem (l : List ℚ) (h : l ≠ []) : seriesMax l ∈ l := by
  cases l with
  | nil => exact absurd rfl h
  | cons a t =>
    show t.foldl max a ∈ a :: t
    rcases foldl_max_mem t a with h1 | h1
    · rw [h1]; exact List.mem_cons_self a t
    · exact List.mem_cons_of_mem a h1

/-! ### Helper lemmas: groupby-sum mass preservation -/

/-- Splitting a measured sum along a boolean predicate. -/
theorem sum_filter_not_split {R : Type} (m : R → ℤ) (p : R → Bool) (rows : List R) :
    ((rows.filter p).map m).sum + ((rows.filter fun r => !p r).map m).sum
      = (rows.map m).sum := by
  induction rows with
  | nil => simp
  | cons a t ih =>
    cases hp : p a with
    | true => simp [List.filter_cons, hp]; omega
    | false => simp [List.filter_cons, hp]; omega

/-- Summing per-key filtered sums over a duplicate-free key list covering
every row recovers the total sum. -/
theorem sum_over_keys {R K : Type} [DecidableEq K] (key : R → K) (m : R → ℤ) :
    ∀ ks : List K, ks.Nodup → ∀ rows : List R, (∀ r ∈ rows, key r ∈ ks) →
    (ks.map fun k => ((rows.filter fun r => decide (key r = k)).map m).sum).sum
      = (rows.map m).sum := by
  intro ks
  induction ks with
  | nil =>
    intro _ rows hcov
    have hrows : rows = [] := by
      cases rows with
      | nil => rfl
      | cons a t => exact absurd (hcov a (List.mem_cons_self a t)) (List.not_mem_nil _)
    subst hrows; simp
  | cons k ks ih =>
    intro hnd rows hcov
    have hk : k ∉ ks := (List.nodup_cons.mp hnd).1
    have hnd2 : ks.Nodup := (List.nodup_cons.mp hnd).2
    simp only [List.map_cons, List.sum_cons]
    have hmap : (ks.map fun k2 => ((rows.filter fun r => decide (key r = k2)).map m).sum)
        = ks.map fun k2 =>
            (((rows.filter fun r => !decide (key r = k)).filter
                fun r => decide (key r = k2)).map m).sum := by
      apply List.map_congr_left
      intro k2 hk2
      have hf : (rows.filter fun r => decide (key r = k2))
          = rows.filter fun a => decide (key a = k2) && !decide (key a = k) := by
        apply List.filter_congr
        intro r _
        by_cases hr : key r = k2
        · have hne : ¬k2 = k := fun hh => hk (hh ▸ hk2)
          simp [hr, hne]
        · simp [hr]
      rw [List.filter_filter, ← hf]
    have hcov2 : ∀ r ∈ rows.filter fun r => !decide (key r = k), key r ∈ ks := by
      intro r hr
      have h1 : r ∈ rows := List.mem_of_mem_filter hr
      have h2 := (List.mem_filter.mp hr).2
      have h3 : key r ≠ k := by simpa using h2
      rcases List.mem_cons.mp (hcov r h1) with h4 | h4
      · exact absurd h4 h3
      · exact h4
    rw [hmap, ih hnd2 (rows.filter fun r => !decide (key r = k)) hcov2]
    exact sum_filter_not_split m (fun r => decide (key r = k)) rows

/-- Groupby-sum preserves the total of the summed measure. -/
theorem groupbySum_mass {R K : Type} [DecidableEq K] (key : R → K) (m : R → ℤ)
    (rows : List R) :
    ((groupbySum key m rows).map Prod.snd).sum = (rows.map m).sum := by
  unfold groupbySum
  rw [List.map_map]
  have hcomp : (Prod.snd ∘ fun k => (k, ((rows.filter fun r => decide (key r = k)).map m).sum))
      = fun k => ((rows.filter fun r => decide (key r = k)).map m).sum := rfl
  rw [hcomp]
  refine sum_over_keys key m (groupKeys key rows) (List.nodup_dedup _) rows ?_
  intro r hr
  exact List.mem_dedup.mpr (List.mem_map_of_mem key hr)

/-! ### C1: groupby-sum preserves total mass -/

/-- C1: for every non-empty table, grouping and summing preserves the
total of the measure — for the bus groupby (key: origin, destination and
coordinates; measure `trips_count`) and for the train-status groupby
(key: station and status; measure `status_count`) alike. -/
theorem groupby_sum_preserves_total_mass (bus : List BusRow) (tr : List TrainRow)
    (_hb : bus ≠ []) (_ht : tr ≠ []) :
    ((groupbySum busKey (fun r => r.trips_count) bus).map Prod.snd).sum
        = (bus.map fun r => r.trips_count).sum
    ∧ ((groupbySum statusKey (fun r => r.status_count) tr).map Prod.snd).sum
        = (tr.map fun r => r.status_count).sum :=
  ⟨groupbySum_mass busKey (fun r => r.trips_count) bus,
   groupbySum_mass statusKey (fun r => r.status_count) tr⟩

/-- Witness for C1 at a concrete one-row bus table and one-row train
table. -/
theorem groupby_sum_preserves_total_mass_witness :
    ((groupbySum busKey (fun r => r.trips_count) [busRowTAH1]).map Prod.snd).sum
        = ([busRowTAH1].map fun r => r.trips_count).sum
    ∧ ((groupbySum statusKey (fun r => r.status_count) [trainRowHaifa]).map Prod.snd).sum
        = ([trainRowHaifa].map fun r => r.status_count).sum :=
  groupby_sum_preserves_total_mass [busRowTAH1] [trainRowHaifa]
    (List.cons_ne_nil _ _) (List.cons_ne_nil _ _)

/-! ### C3: concrete bus scenario -/

set_option synthInstance.maxSize 2000 in
/-- C3: on the scenario table of two Tel Aviv→Haifa rows (100 and 50
trips) and one Tel Aviv→Jerusalem row (30 trips) for 2023, filtering to
origin Tel Aviv, aggregating and taking the top 15 yields exactly the
two rows (Tel Aviv→Haifa, 150) and (Tel Aviv→Jerusalem, 30) in
descending trip-count order: rows sharing the city/coordinate key are
summed into one output row. -/
theorem bus_scenario_aggregation :
    busPipeline busScenario [2023] "Tel Aviv" =
      [(("Tel Aviv", "Haifa", 32, 34, 32, 35), 150),
       (("Tel Aviv", "Jerusalem", 32, 34, 31, 35), 30)] := by
  decide

/-! ### C5: all-zero measures and the normalization divisor -/

/-- C5 counterexample: on a non-empty result set whose only trip count is
zero, the normalization step does not define the normalized field as 0 —
the division `0 / 0` is performed and yields no finite value (NaN in
pandas, `none` here). -/
theorem normalize_zero_max_counterexample :
    (normalizeWidth (fun r : BusRow => r.trips_count) [zeroBusRow]).map Prod.snd = [none]
    ∧ (normalizeWidth (fun r : BusRow => r.trips_count) [zeroBusRow]).map Prod.snd
        ≠ [some 0] := by
  decide

/-- C5 amended: on every non-empty result set whose measures are all
zero, the normalization step leaves every normalized field undefined
(`none`, the NaN of the float world) rather than defining it as 0. -/
theorem normalize_zero_max_value_undefined {R : Type} (measure : R → ℤ) (rows : List R)
    (hne : rows ≠ []) (hz : ∀ r ∈ rows, measure r = 0) :
    ∀ p ∈ normalizeWidth measure rows, p.2 = none := by
  have hmapne : (rows.map fun r => ((measure r : ℚ))) ≠ [] := by
    intro hmap
    exact hne (List.map_eq_nil_iff.mp hmap)
  have hmx : seriesMax (rows.map fun r => ((measure r : ℚ))) = 0 := by
    have hmem := seriesMax_mem (rows.map fun r => ((measure r : ℚ))) hmapne
    rcases List.mem_map.mp hmem with ⟨r, hr, heq⟩
    rw [← heq, hz r hr]
    simp
  intro p hp
  simp only [normalizeWidth] at hp
  rcases List.mem_map.mp hp with ⟨r, _, rfl⟩
  rw [hmx]
  simp [pdDiv]

/-- Witness for C5's amended statement at the one-row zero table. -/
theorem normalize_zero_max_value_undefined_witness :
    (zeroBusRow, (none : Option ℚ))
        ∈ normalizeWidth (fun r : BusRow => r.trips_count) [zeroBusRow]
    ∧ (zeroBusRow, (none : Option ℚ)).2 = none :=
  ⟨by decide,
   normalize_zero_max_value_undefined (fun r : BusRow => r.trips_count) [zeroBusRow]
     (List.cons_ne_nil _ _) (by decide) (zeroBusRow, none) (by decide)⟩

/-! ### C6: month range with lo > hi -/

/-- C6 counterexample: with swapped month bounds (lo = 3 > hi = 1) the
train-status filter silently returns an empty result and raises no
error, whereas the same table with the bounds in order keeps the row —
so the bounds are not swapped and no caller error is reported. -/
theorem month_range_swapped_counterexample :
    statusFilter [trainRowHaifa] 2023 ["Haifa"] 3 1 = []
    ∧ statusFilter [trainRowHaifa] 2023 ["Haifa"] 1 3 = [trainRowHaifa] := by
  decide

/-- C6 amended: whenever lo > hi, the month-range conjunction
`hodesh >= lo AND hodesh <= hi` is unsatisfiable, so the filter silently
returns the empty table (no error is raised and the bounds are not
swapped). -/
theorem month_range_lo_gt_hi_silently_empty (df : List TrainRow) (y : ℕ)
    (stations : List String) (lo hi : ℕ) (h : hi < lo) :
    statusFilter df y stations lo hi = [] := by
  unfold statusFilter
  rw [List.filter_eq_nil_iff]
  intro r _
  simp only [Bool.and_eq_true, decide_eq_true_eq]
  rintro ⟨⟨⟨-, -⟩, h3⟩, h4⟩
  omega

/-- Witness for C6's amended statement at concrete swapped bounds. -/
theorem month_range_lo_gt_hi_silently_empty_witness :
    statusFilter [trainRowHaifa] 2023 ["Haifa"] 3 1 = [] :=
  month_range_lo_gt_hi_silently_empty [trainRowHaifa] 2023 ["Haifa"] 3 1 (by decide)

/-! ### C7: period-key format -/

/-- C7: for every year and month in [1, 12], the period key is the
decimal year, a dash, and the month zero-padded to two digits; in
particular `year_month 2024 3 = "2024-03"` and
`year_month 2024 11 = "2024-11"`. -/
theorem period_key_format (y m : ℕ) (h1 : 1 ≤ m) (h2 : m ≤ 12) :
    year_month y m = Nat.repr y ++ "-" ++ (if m < 10 then "0" ++ Nat.repr m else Nat.repr m)
    ∧ (zfill2 (Nat.repr m)).length = 2
    ∧ year_month 2024 3 = "2024-03"
    ∧ year_month 2024 11 = "2024-11" := by
  refine ⟨?_, zfill2_repr_len m (by omega), by decide, by decide⟩
  unfold year_month
  rw [zfill2_repr_eq m (by omega)]

/-- Witness for C7 at year 2024, month 3. -/
theorem period_key_format_witness :
    year_month 2024 3
        = Nat.repr 2024 ++ "-" ++ (if 3 < 10 then "0" ++ Nat.repr 3 else Nat.repr 3)
    ∧ (zfill2 (Nat.repr 3)).length = 2
    ∧ year_month 2024 3 = "2024-03"
    ∧ year_month 2024 11 = "2024-11" :=
  period_key_format 2024 3 (by decide) (by decide)

/-! ### C4: normalized width bounds -/

/-- C4: on every non-empty result set whose maximum measure is strictly
positive (measures being non-negative, the trip-count invariant), each
row's normalized width equals measure / max × 6, every normalized width
lies in [0, 6], every row attaining the maximum gets exactly 6, and the
value 6 is attained. -/
theorem normalized_width_bounds {R : Type} (measure : R → ℤ) (rows : List R)
    (hne : rows ≠ [])
    (hmax : 0 < seriesMax (rows.map fun r => ((measure r : ℚ))))
    (hnn : ∀ r ∈ rows, 0 ≤ measure r) :
    (∀ p ∈ normalizeWidth measure rows,
        p.2 = some ((measure p.1 : ℚ) / seriesMax (rows.map fun r => ((measure r : ℚ))) * 6)
        ∧ ∃ q : ℚ, p.2 = some q ∧ 0 ≤ q ∧ q ≤ 6)
    ∧ (∀ p ∈ normalizeWidth measure rows,
        (measure p.1 : ℚ) = seriesMax (rows.map fun r => ((measure r : ℚ))) → p.2 = some 6)
    ∧ ∃ p ∈ normalizeWidth measure rows, p.2 = some 6 := by
  have hmxne : seriesMax (rows.map fun r => ((measure r : ℚ))) ≠ 0 := ne_of_gt hmax
  have hmem : ∀ p ∈ normalizeWidth measure rows, ∃ r ∈ rows,
      p = (r, some ((measure r : ℚ) / seriesMax (rows.map fun r => ((measure r : ℚ))) * 6)) := by
    intro p hp
    simp only [normalizeWidth] at hp
    rcases List.mem_map.mp hp with ⟨r, hr, rfl⟩
    exact ⟨r, hr, by simp [pdDiv, hmxne]⟩
  refine ⟨?_, ?_, ?_⟩
  · intro p hp
    rcases hmem p hp with ⟨r, hr, rfl⟩
    refine ⟨rfl, _, rfl, ?_, ?_⟩
    · have h0 : (0 : ℚ) ≤ (measure r : ℚ) := by exact_mod_cast hnn r hr
      exact mul_nonneg (div_nonneg h0 (le_of_lt hmax)) (by norm_num)
    · have hle : (measure r : ℚ) ≤ seriesMax (rows.map fun r => ((measure r : ℚ))) :=
        le_seriesMax _ _ (List.mem_map_of_mem _ hr)
      have hdiv : (measure r : ℚ) / seriesMax (rows.map fun r => ((measure r : ℚ))) ≤ 1 :=
        (div_le_one hmax).mpr hle
      calc (measure r : ℚ) / seriesMax (rows.map fun r => ((measure r : ℚ))) * 6
          ≤ 1 * 6 := mul_le_mul_of_nonneg_right hdiv (by norm_num)
        _ = 6 := by norm_num
  · intro p hp heq
    rcases hmem p hp with ⟨r, hr, rfl⟩
    simp only at heq
    show some ((measure r : ℚ) / seriesMax (rows.map fun r => ((measure r : ℚ))) * 6) = some 6
    rw [heq, div_self hmxne]
    norm_num
  · have hmxmem : seriesMax (rows.map fun r => ((measure r : ℚ)))
        ∈ rows.map fun r => ((measure r : ℚ)) := by
      refine seriesMax_mem _ ?_
      intro hmap
      exact hne (List.map_eq_nil_iff.mp hmap)
    rcases List.mem_map.mp hmxmem with ⟨r, hr, heq⟩
    refine ⟨(r, some ((measure r : ℚ) / seriesMax (rows.map fun r => ((measure r : ℚ))) * 6)),
      ?_, ?_⟩
    · have hh : (fun r => (r, (pdDiv ((measure r : ℚ))
            (seriesMax (rows.map fun r => ((measure r : ℚ))))).map fun q => q * 6)) r
          = (r, some ((measure r : ℚ) / seriesMax (rows.map fun r => ((measure r : ℚ))) * 6)) := by
        simp [pdDiv, hmxne]
      simp only [normalizeWidth]
      rw [← hh]
      exact List.mem_map_of_mem _ hr
    · show some ((measure r : ℚ) / seriesMax (rows.map fun r => ((measure r : ℚ))) * 6) = some 6
      rw [heq, div_self hmxne]
      norm_num

/-- Witness for C4 at the one-row table [5]: the single row attains the
maximum and its normalized width is exactly 6. -/
theorem normalized_width_bounds_witness :
    ((5 : ℤ), some (6 : ℚ)) ∈ normalizeWidth (fun z : ℤ => z) [(5 : ℤ)]
    ∧ ((5 : ℤ), some (6 : ℚ)).2 = some 6 :=
  ⟨by simp [normalizeWidth, pdDiv, seriesMax],
   (normalized_width_bounds (fun z : ℤ => z) [(5 : ℤ)] (List.cons_ne_nil _ _)
      (by simp [seriesMax]) (by decide)).2.1 ((5 : ℤ), some 6)
     (by simp [normalizeWidth, pdDiv, seriesMax]) (by simp [seriesMax])⟩

/-! ### C9: event-marker lookup -/

/-- Any hit returned by `findFirstIdx` is a list element satisfying the
predicate. -/
theorem findFirstIdx_sound {α : Type} (p : α → Bool) :
    ∀ (l : List α) (base j : ℕ) (a : α),
      findFirstIdx p l base = some (j, a) → a ∈ l ∧ p a = true := by
  intro l
  induction l with
  | nil => intro base j a h; exact absurd h (by simp [findFirstIdx])
  | cons b t ih =>
    intro base j a h
    cases hb : p b with
    | true =>
      simp only [findFirstIdx, hb, if_true] at h
      rcases h with ⟨rfl, rfl⟩
      exact ⟨List.mem_cons_self b t, hb⟩
    | false =>
      simp only [findFirstIdx, hb, if_false] at h
      rcases ih (base + 1) j a h with ⟨hmem, hp⟩
      exact ⟨List.mem_cons_of_mem b hmem, hp⟩

/-- When position `i` holds a match and every earlier position does not,
`findFirstIdx` returns exactly position `i` (shifted by the base) and
the row there. -/
theorem findFirstIdx_at {α : Type} (p : α → Bool) :
    ∀ (l : List α) (i base : ℕ) (pt : α), l.get? i = some pt → p pt = true →
      (∀ j, j < i → ∀ q, l.get? j = some q → p q = false) →
      findFirstIdx p l base = some (base + i, pt) := by
  intro l
  induction l with
  | nil => intro i base pt hget; simp at hget
  | cons b t ih =>
    intro i base pt hget hp hpre
    cases i with
    | zero =>
      have hb : b = pt := by simpa using hget
      subst hb
      simp [findFirstIdx, hp]
    | succ i2 =>
      have hb : p b = false := hpre 0 (Nat.succ_pos i2) b rfl
      have hrec := ih i2 (base + 1) pt (by simpa using hget) hp ?_
      · have harith : base + 1 + i2 = base + (i2 + 1) := by omega
        rw [harith] at hrec
        simp [findFirstIdx, hb, hrec]
      · intro j hj q hq
        exact hpre (j + 1) (by omega) q (by simpa using hq)

/-- C9: an event date absent from the series period keys contributes no
marker (and no error arises — `eventMarkers` is total); an event date
present in a series with duplicate-free period keys is attached to the
unique matching point: its position and its summed count. -/
theorem event_markers_lookup (series : List ((ℕ × ℕ) × ℤ × String)) (dates : List String)
    (d : String) :
    ((∀ p ∈ series, p.2.2 ≠ d) → ∀ e ∈ eventMarkers series dates, e.1 ≠ d)
    ∧ ∀ (i : ℕ) (pt : (ℕ × ℕ) × ℤ × String),
        (series.map fun p => p.2.2).Nodup → series.get? i = some pt → pt.2.2 = d →
        d ∈ dates → (d, i, pt.2.1) ∈ eventMarkers series dates := by
  constructor
  · intro habs e he
    rcases List.mem_filterMap.mp he with ⟨d2, _, hsome⟩
    rcases Option.map_eq_some'.mp hsome with ⟨q, hq, hqe⟩
    rcases findFirstIdx_sound _ series 0 q.1 q.2 hq with ⟨hmem, hpred⟩
    have hkey : q.2.2.2 = d2 := by simpa using hpred
    intro hed
    rw [← hqe] at hed
    exact habs q.2 hmem (hkey.trans hed)
  · intro i pt hnd hget hptd hd
    apply List.mem_filterMap.mpr
    refine ⟨d, hd, ?_⟩
    rcases List.get?_eq_some.mp hget with ⟨hil, hgeti⟩
    have hfind : findFirstIdx (fun p => decide (p.2.2 = d)) series 0 = some (0 + i, pt) := by
      apply findFirstIdx_at
      · exact hget
      · simp [hptd]
      · intro j hj q hq
        rcases List.get?_eq_some.mp hq with ⟨hjl, hgetj⟩
        have hpair : List.Pairwise (fun a b : (ℕ × ℕ) × ℤ × String => a.2.2 ≠ b.2.2) series :=
          List.pairwise_map.mp hnd
        have hne := (List.pairwise_iff_get.mp hpair) ⟨j, hjl⟩ ⟨i, hil⟩ hj
        rw [hgetj, hgeti] at hne
        simp [hptd] at hne ⊢
        exact hne
    rw [hfind]
    simp

/-- Witness for C9: the date "2020-03" occurs at position 1 of the sample
series and receives a marker with its count 9. -/
theorem event_markers_lookup_witness :
    ("2020-03", 1, (9 : ℤ)) ∈ eventMarkers sampleSeries annotationDates :=
  (event_markers_lookup sampleSeries annotationDates "2020-03").2 1 ((2020, 3), 9, "2020-03")
    (by decide) (by decide) (by decide) (by decide)

/-! ### C10: September 2024 cutoff -/

/-- C10: every point of the ridership series has its period no later
than September 2024, for every input table, station selection and year
range — the cutoff filter runs before all other steps. -/
theorem ridership_series_cutoff (data : List TrainRow) (selected_city : String) (lo hi : ℕ) :
    ∀ p ∈ ridershipSeries data selected_city lo hi,
      p.1.1 < 2024 ∨ (p.1.1 = 2024 ∧ p.1.2 ≤ 9) := by
  intro p hp
  rw [ridershipSeries, tripsPerMonth, List.mem_insertionSort] at hp
  rcases List.mem_map.mp hp with ⟨g, hg, rfl⟩
  have hkey : g.1 ∈ groupKeys monthKeyOf
      (filterYearRange (filterStation (ridershipBase data) selected_city) lo hi) := by
    unfold groupbySum at hg
    rcases List.mem_map.mp hg with ⟨k, hk, rfl⟩
    exact hk
  rcases List.mem_map.mp (List.mem_dedup.mp hkey) with ⟨r, hr, hkr⟩
  have hr1 : r ∈ filterStation (ridershipBase data) selected_city :=
    List.mem_of_mem_filter hr
  have hr2 : r ∈ ridershipBase data := by
    unfold filterStation at hr1
    by_cases hc : selected_city = "All"
    · rwa [if_pos hc] at hr1
    · rw [if_neg hc] at hr1
      exact List.mem_of_mem_filter hr1
  have hr3 := (List.mem_filter.mp hr2).2
  simp only [Bool.or_eq_true, Bool.and_eq_true, decide_eq_true_eq] at hr3
  show g.1.1 < 2024 ∨ (g.1.1 = 2024 ∧ g.1.2 ≤ 9)
  rw [← hkr]
  exact hr3

/-- Witness for C10 at a concrete one-row table whose series point is
May 2023. -/
theorem ridership_series_cutoff_witness :
    ((2023, 5), (7 : ℤ), "2023-05") ∈ ridershipSeries [trainRowMay] "All" 2019 2024
    ∧ (2023 < 2024 ∨ (2023 = 2024 ∧ 5 ≤ 9)) :=
  ⟨by decide,
   ridership_series_cutoff [trainRowMay] "All" 2019 2024 ((2023, 5), 7, "2023-05") (by decide)⟩

/-! ### C8: monthly series strictly increasing, unique period keys -/

/-- First components of groupby-sum output are the distinct group keys. -/
theorem groupbySum_map_fst {R K : Type} [DecidableEq K] (key : R → K) (m : R → ℤ)
    (rows : List R) : (groupbySum key m rows).map Prod.fst = groupKeys key rows := by
  unfold groupbySum
  rw [List.map_map]
  have hcomp : (Prod.fst ∘ fun k =>
      (k, ((rows.filter fun r => decide (key r = k)).map m).sum)) = id := rfl
  rw [hcomp, List.map_id]

/-- Weak lexicographic order plus distinctness gives the strict order. -/
theorem ymLe_ne_lt {a b : ℕ × ℕ} (h : ymLe a b) (hne : a ≠ b) : ymLt a b := by
  unfold ymLe at h
  unfold ymLt
  rcases h with h | ⟨h1, h2⟩
  · exact Or.inl h
  · right
    refine ⟨h1, lt_of_le_of_ne h2 ?_⟩
    intro h3
    exact hne (Prod.ext_iff.mpr ⟨h1, h3⟩)

/-- The monthly series is pairwise strictly increasing in (year, month)
and its period keys are pairwise distinct, for any row set whose months
lie in [1, 12]. -/
theorem tripsPerMonth_sorted_nodup (rows : List TrainRow)
    (hm : ∀ r ∈ rows, 1 ≤ r.hodesh ∧ r.hodesh ≤ 12) :
    List.Pairwise (fun p q : (ℕ × ℕ) × ℤ × String => ymLt p.1 q.1) (tripsPerMonth rows)
    ∧ ((tripsPerMonth rows).map fun p => p.2.2).Nodup := by
  have hGfst : (groupbySum monthKeyOf (fun r => r.status_count) rows).map Prod.fst
      = groupKeys monthKeyOf rows := groupbySum_map_fst monthKeyOf (fun r => r.status_count) rows
  have hMfst : (((groupbySum monthKeyOf (fun r => r.status_count) rows).map
        fun p => (p.1, p.2, year_month p.1.1 p.1.2)).map fun p => p.1)
      = (groupbySum monthKeyOf (fun r => r.status_count) rows).map Prod.fst := by
    rw [List.map_map]
    rfl
  have hMnodup : (((groupbySum monthKeyOf (fun r => r.status_count) rows).map
        fun p => (p.1, p.2, year_month p.1.1 p.1.2)).map fun p => p.1).Nodup := by
    rw [hMfst, hGfst]
    exact List.nodup_dedup _
  have hperm := List.perm_insertionSort seriesLe
    ((groupbySum monthKeyOf (fun r => r.status_count) rows).map
      fun p => (p.1, p.2, year_month p.1.1 p.1.2))
  have hsorted := List.sorted_insertionSort seriesLe
    ((groupbySum monthKeyOf (fun r => r.status_count) rows).map
      fun p => (p.1, p.2, year_month p.1.1 p.1.2))
  have hSfstnodup : ((tripsPerMonth rows).map fun p => p.1).Nodup :=
    ((hperm.map fun p => p.1).nodup_iff).mpr hMnodup
  have hpairne : List.Pairwise (fun p q : (ℕ × ℕ) × ℤ × String => p.1 ≠ q.1)
      (tripsPerMonth rows) := List.pairwise_map.mp hSfstnodup
  have hlt : List.Pairwise (fun p q : (ℕ × ℕ) × ℤ × String => ymLt p.1 q.1)
      (tripsPerMonth rows) := by
    have hand := List.Pairwise.and hsorted hpairne
    refine List.Pairwise.imp ?_ hand
    intro a b hab
    exact ymLe_ne_lt hab.1 hab.2
  have hkeys : ∀ p ∈ tripsPerMonth rows,
      p.2.2 = year_month p.1.1 p.1.2 ∧ 1 ≤ p.1.2 ∧ p.1.2 ≤ 12 := by
    intro p hp
    have hpM := (List.mem_insertionSort seriesLe).mp hp
    rcases List.mem_map.mp hpM with ⟨g, hg, rfl⟩
    refine ⟨rfl, ?_⟩
    have hkey : g.1 ∈ groupKeys monthKeyOf rows := by
      unfold groupbySum at hg
      rcases List.mem_map.mp hg with ⟨k, hk, rfl⟩
      exact hk
    rcases List.mem_map.mp (List.mem_dedup.mp hkey) with ⟨r, hr, hkr⟩
    have hbound := hm r hr
    rw [← hkr]
    exact hbound
  have hkeysne : List.Pairwise (fun p q : (ℕ × ℕ) × ℤ × String => p.2.2 ≠ q.2.2)
      (tripsPerMonth rows) := by
    refine List.Pairwise.imp_of_mem ?_ hpairne
    intro a b ha hb hne heq
    rcases hkeys a ha with ⟨hae, _, ha2⟩
    rcases hkeys b hb with ⟨hbe, _, hb2⟩
    rw [hae, hbe] at heq
    rcases year_month_inj ha2 hb2 heq with ⟨hy, hmo⟩
    exact hne (Prod.ext_iff.mpr ⟨hy, hmo⟩)
  exact ⟨hlt, List.pairwise_map.mpr hkeysne⟩

/-- C8: for every input table (months within [1, 12], the data-model
invariant), station selection and year range, the ridership series is
strictly increasing in (year, month) along its sequence index, and each
period key occurs at most once. -/
theorem ridership_series_strictly_increasing (data : List TrainRow) (selected_city : String)
    (lo hi : ℕ) (hm : ∀ r ∈ data, 1 ≤ r.hodesh ∧ r.hodesh ≤ 12) :
    (∀ i j : Fin (ridershipSeries data selected_city lo hi).length, i < j →
        ymLt ((ridershipSeries data selected_city lo hi).get i).1
          ((ridershipSeries data selected_city lo hi).get j).1)
    ∧ ((ridershipSeries data selected_city lo hi).map fun p => p.2.2).Nodup := by
  have hsub : ∀ r ∈ filterYearRange (filterStation (ridershipBase data) selected_city) lo hi,
      r ∈ data := by
    intro r hr
    have hr1 : r ∈ filterStation (ridershipBase data) selected_city :=
      List.mem_of_mem_filter hr
    have hr2 : r ∈ ridershipBase data := by
      unfold filterStation at hr1
      by_cases hc : selected_city = "All"
      · rwa [if_pos hc] at hr1
      · rw [if_neg hc] at hr1
        exact List.mem_of_mem_filter hr1
    exact List.mem_of_mem_filter hr2
  have h := tripsPerMonth_sorted_nodup
    (filterYearRange (filterStation (ridershipBase data) selected_city) lo hi)
    (fun r hr => hm r (hsub r hr))
  exact ⟨fun i j hij => List.pairwise_iff_get.mp h.1 i j hij, h.2⟩

/-- Witness for C8 at a concrete one-row table. -/
theorem ridership_series_strictly_increasing_witness :
    ((ridershipSeries [trainRowMay] "All" 2019 2024).map fun p => p.2.2).Nodup :=
  (ridership_series_strictly_increasing [trainRowMay] "All" 2019 2024 (by decide)).2

/-! ### C2: top-N contract -/

/-- C2: `nlargest n` returns exactly min(n, len) rows, sorted descending
by the measure; the stable sort behind it preserves the input order of
every tied block exactly (the filter by any fixed measure value is
unchanged), so the cut keeps tied rows in input order (the filtered cut
is a sublist of the input's tied rows); and the empty table yields the
empty result. -/
theorem top_n_contract {R : Type} (rows : List R) (n : ℕ) (measure : R → ℤ) :
    (nlargest n measure rows).length = min n rows.length
    ∧ List.Sorted (fun a b => measure b ≤ measure a) (nlargest n measure rows)
    ∧ (∀ v : ℤ, ((stableSortDesc measure rows).filter fun r => decide (measure r = v))
        = rows.filter fun r => decide (measure r = v))
    ∧ (∀ v : ℤ, List.Sublist
        ((nlargest n measure rows).filter fun r => decide (measure r = v))
        (rows.filter fun r => decide (measure r = v)))
    ∧ (rows = [] → nlargest n measure rows = []) := by
  have hperm : List.Perm (rows.enum.insertionSort (rankRel measure)) rows.enum :=
    List.perm_insertionSort _ _
  have hsorted := List.sorted_insertionSort (rankRel measure) rows.enum
  have hlen : (nlargest n measure rows).length = min n rows.length := by
    unfold nlargest stableSortDesc
    rw [List.length_take, List.length_map, hperm.length_eq, List.enum_length]
  have hdesc : List.Sorted (fun a b => measure b ≤ measure a) (stableSortDesc measure rows) := by
    unfold stableSortDesc
    refine List.pairwise_map.mpr ?_
    refine List.Pairwise.imp ?_ hsorted
    intro a b hab
    unfold rankRel at hab
    omega
  have hsorted_top : List.Sorted (fun a b => measure b ≤ measure a)
      (nlargest n measure rows) := by
    unfold nlargest
    exact List.Pairwise.sublist (List.take_sublist n _) hdesc
  have hstab : ∀ v : ℤ, ((stableSortDesc measure rows).filter fun r => decide (measure r = v))
      = rows.filter fun r => decide (measure r = v) := by
    intro v
    have hA0 : List.Pairwise (rankRel measure)
        ((rows.enum.insertionSort (rankRel measure)).filter
          fun q => decide (measure q.2 = v)) :=
      List.Pairwise.sublist (List.filter_sublist _) hsorted
    have hfstnodup : ((rows.enum.insertionSort (rankRel measure)).map Prod.fst).Nodup := by
      have h1 : List.Perm ((rows.enum.insertionSort (rankRel measure)).map Prod.fst)
          (rows.enum.map Prod.fst) := hperm.map _
      rw [List.enum_map_fst] at h1
      exact (h1.nodup_iff).mpr (List.nodup_range _)
    have hAne : List.Pairwise (fun a b : ℕ × R => a.1 ≠ b.1)
        ((rows.enum.insertionSort (rankRel measure)).filter
          fun q => decide (measure q.2 = v)) := by
      have h2 : List.Pairwise (fun a b : ℕ × R => a.1 ≠ b.1)
          (rows.enum.insertionSort (rankRel measure)) := List.pairwise_map.mp hfstnodup
      exact List.Pairwise.sublist (List.filter_sublist _) h2
    have hApair : List.Pairwise (@idxLt R)
        ((rows.enum.insertionSort (rankRel measure)).filter
          fun q => decide (measure q.2 = v)) := by
      refine List.Pairwise.imp_of_mem ?_ (List.Pairwise.and hA0 hAne)
      intro a b ha hb hab
      have hav : measure a.2 = v := by simpa using (List.mem_filter.mp ha).2
      have hbv : measure b.2 = v := by simpa using (List.mem_filter.mp hb).2
      have h3 := hab.1
      have h4 := hab.2
      unfold rankRel at h3
      unfold idxLt
      omega
    have hBpair : List.Pairwise (@idxLt R)
        (rows.enum.filter fun q => decide (measure q.2 = v)) := by
      have h5 : List.Pairwise (fun a b : ℕ × R => a.1 < b.1) rows.enum := by
        have h6 := List.pairwise_lt_range rows.length
        rw [← List.enum_map_fst] at h6
        exact List.pairwise_map.mp h6
      exact List.Pairwise.sublist (List.filter_sublist _) h5
    have hABperm : List.Perm
        ((rows.enum.insertionSort (rankRel measure)).filter
          fun q => decide (measure q.2 = v))
        (rows.enum.filter fun q => decide (measure q.2 = v)) := hperm.filter _
    have hAB := List.eq_of_perm_of_sorted hABperm hApair hBpair
    calc ((stableSortDesc measure rows).filter fun r => decide (measure r = v))
        = List.map Prod.snd ((rows.enum.insertionSort (rankRel measure)).filter
            ((fun r => decide (measure r = v)) ∘ Prod.snd)) :=
          List.filter_map Prod.snd _
      _ = List.map Prod.snd ((rows.enum.insertionSort (rankRel measure)).filter
            fun q => decide (measure q.2 = v)) := rfl
      _ = List.map Prod.snd (rows.enum.filter fun q => decide (measure q.2 = v)) := by
            rw [hAB]
      _ = List.map Prod.snd (rows.enum.filter
            ((fun r => decide (measure r = v)) ∘ Prod.snd)) := rfl
      _ = (rows.enum.map Prod.snd).filter fun r => decide (measure r = v) :=
            (List.filter_map Prod.snd _).symm
      _ = rows.filter fun r => decide (measure r = v) := by
            rw [List.enum_map_snd]
  refine ⟨hlen, hsorted_top, hstab, ?_, ?_⟩
  · intro v
    have h9 : List.Sublist
        ((nlargest n measure rows).filter fun r => decide (measure r = v))
        ((stableSortDesc measure rows).filter fun r => decide (measure r = v)) :=
      List.Sublist.filter _ (List.take_sublist n _)
    rw [hstab v] at h9
    exact h9
  · intro h
    subst h
    simp [nlargest, stableSortDesc]

/-- Witness for C2: the empty-table conjunct of the contract evaluated at
a concrete instance. -/
theorem top_n_contract_witness :
    nlargest 1 (fun z : ℤ => z) ([] : List ℤ) = [] :=
  (top_n_contract ([] : List ℤ) 1 (fun z => z)).2.2.2.2 rfl
